import Mathlib

/-!
Verification of the BPE vocabulary-learning core of `llm-zero-to-trained`.

The repository ships the implementation guide for `bpe_trainer.py` but not the
module itself, so the trainer is modelled here from the specification: words are
split into character symbols plus an end-of-word marker, adjacent symbol pairs
are counted weighted by word frequency, the highest-count pair (ties broken by
ascending lexicographic order of the joined pair text) is fused across the
vocabulary, and the loop repeats for a requested number of merges, emitting
`vocab.txt` and `merges.txt` at the end.
-/

namespace BPE

/-- Modelled from the spec: the end-of-word marker sentinel appended to every
word by the Vocabulary Initializer of the missing `bpe_trainer.py`. -/
def endOfWord : String := "</w>"

/-- Modelled from the spec: a VocabEntry of the missing `bpe_trainer.py` — the
original word, its current ordered symbol sequence, and the word frequency. -/
structure VocabEntry where
  word : String
  symbols : List String
  freq : Nat
deriving DecidableEq

/-- Modelled from the spec: `_init_vocab` of the missing `bpe_trainer.py` —
convert the word-frequency input into a character-level vocabulary with the
end-of-word marker appended as the final symbol of every entry. -/
def initVocab (wf : List (String × Int)) : List VocabEntry :=
  wf.map (fun p => ⟨p.1, p.1.data.map (fun c => String.mk [c]) ++ [endOfWord], p.2.toNat⟩)

/-- The ordered adjacent symbol pairs of a symbol sequence. -/
def adjacentPairs (s : List String) : List (String × String) :=
  s.zip s.tail

/-- Modelled from the spec: the inner loop of `_count_symbol_pairs` of the
missing `bpe_trainer.py` — walk one entry's symbol sequence and add the entry's
frequency to the running count of every adjacent pair encountered. -/
def addPairs (freq : Nat) : List String → ((String × String) → Nat) → ((String × String) → Nat)
  | [], f => f
  | [_], f => f
  | a :: b :: rest, f =>
      addPairs freq (b :: rest) (fun q => if q = (a, b) then f q + freq else f q)

/-- Modelled from the spec: `_count_symbol_pairs` of the missing
`bpe_trainer.py` — the frequency-weighted PairCount over the whole
vocabulary. -/
def countSymbolPairs (v : List VocabEntry) : (String × String) → Nat :=
  v.foldl (fun f e => addPairs e.freq e.symbols f) (fun _ => 0)

/-- All adjacent pair occurrences across the vocabulary, with multiplicity. -/
def allPairs (v : List VocabEntry) : List (String × String) :=
  (v.map (fun e => adjacentPairs e.symbols)).flatten

/-- The joined textual form of a pair, used by the tie-break rule. -/
def joinedPair (p : String × String) : String := p.1 ++ p.2

/-- Code-point comparison of characters. -/
def charLt (a b : Char) : Bool := a.toNat < b.toNat

/-- Lexicographic comparison of character lists. -/
def charListLt : List Char → List Char → Bool
  | [], [] => false
  | [], _ :: _ => true
  | _ :: _, [] => false
  | a :: as, b :: bs =>
      if charLt a b then true else if charLt b a then false else charListLt as bs

/-- Lexicographic comparison of strings (shown below to agree with the
standard strict order on `String`). -/
def strLt (a b : String) : Bool := charListLt a.data b.data

/-- Modelled from the spec: the selection order of the Merge Selector of the
missing `bpe_trainer.py` — `q` beats `b` when its count is strictly higher, or
the counts tie and `q`'s joined textual form is lexicographically smaller. -/
def betterPair (v : List VocabEntry) (q b : String × String) : Bool :=
  countSymbolPairs v b < countSymbolPairs v q ||
    (countSymbolPairs v q = countSymbolPairs v b && strLt (joinedPair q) (joinedPair b))

/-- The fold computing the greedy maximum under `betterPair`. -/
def pickBest (v : List VocabEntry) (p : String × String)
    (ps : List (String × String)) : String × String :=
  ps.foldl (fun b q => if betterPair v q b then q else b) p

/-- Modelled from the spec: the greedy `max` selection of the missing
`bpe_trainer.py` with the deterministic lexicographic tie-break; `none` when
PairCount is empty. -/
def selectPair (v : List VocabEntry) : Option (String × String) :=
  match allPairs v with
  | [] => none
  | p :: ps => some (pickBest v p ps)

/-- Modelled from the spec: the boundary-respecting rewrite of `_merge_vocab`
of the missing `bpe_trainer.py`, as a left-to-right scan-and-splice over the
symbol sequence: every non-overlapping adjacent occurrence of the pair is
replaced by the fused symbol. -/
def mergeSymbols (l r : String) : List String → List String
  | [] => []
  | [x] => [x]
  | x :: y :: rest =>
      if x = l ∧ y = r then (l ++ r) :: mergeSymbols l r rest
      else x :: mergeSymbols l r (y :: rest)

/-- Modelled from the spec: `_merge_vocab` of the missing `bpe_trainer.py` —
apply one merge across every VocabEntry, keeping words and frequencies. -/
def applyMerge (p : String × String) (v : List VocabEntry) : List VocabEntry :=
  v.map (fun e => ⟨e.word, mergeSymbols p.1 p.2 e.symbols, e.freq⟩)

/-- Modelled from the spec: the merge loop of `fit` of the missing
`bpe_trainer.py` — repeat select-and-apply for the given fuel, returning the
final vocabulary, the ordered MergeOp log, and whether the loop terminated
early because PairCount became empty. -/
def fitAux : Nat → List VocabEntry → List VocabEntry × List (String × String) × Bool
  | 0, v => (v, [], false)
  | n + 1, v =>
      match selectPair v with
      | none => (v, [], true)
      | some p =>
          let res := fitAux n (applyMerge p v)
          (res.1, p :: res.2.1, res.2.2)

/-- Modelled from the spec: the error taxonomy of the missing
`bpe_trainer.py`. -/
inductive BPEError where
  | invalidInput : BPEError
deriving DecidableEq

/-- Modelled from the spec: the result record of a training run of the missing
`bpe_trainer.py`: final vocabulary, ordered MergeOp log, requested and
performed merge counts, and the EarlyTermination indicator. -/
structure FitResult where
  vocab : List VocabEntry
  merges : List (String × String)
  requested : Nat
  performed : Nat
  earlyTermination : Bool
deriving DecidableEq

deriving instance DecidableEq for Except

/-- Modelled from the spec: input validation of `fit` of the missing
`bpe_trainer.py` — the input is rejected when the frequency map is empty,
a frequency is non-positive, a word is empty, or the merge count is
negative. -/
def validInput (wf : List (String × Int)) (n : Int) : Bool :=
  !wf.isEmpty && wf.all (fun p => 0 < p.2 && p.1 ≠ "") && 0 ≤ n

/-- Modelled from the spec: `fit` of the missing `bpe_trainer.py` — validate
the input, build the initial vocabulary, and run the merge loop. -/
def fit (wf : List (String × Int)) (n : Int) : Except BPEError FitResult :=
  if validInput wf n then
    let v := initVocab wf
    let res := fitAux n.toNat v
    .ok ⟨res.1, res.2.1, n.toNat, res.2.1.length, res.2.2⟩
  else
    .error .invalidInput

/-- One line of `merges.txt`: left and right symbol separated by one space. -/
def mergeLine (p : String × String) : String := p.1 ++ " " ++ p.2

/-- Modelled from the spec: the `merges.txt` artifact of `save_artifacts` of
the missing `bpe_trainer.py`, as its list of lines in learned order. -/
def mergesTxt (log : List (String × String)) : List String := log.map mergeLine

/-- One line of `vocab.txt`: space-joined symbols then the frequency. -/
def entryLine (e : VocabEntry) : String :=
  String.intercalate " " e.symbols ++ " " ++ Nat.repr e.freq

/-- Emission order of `vocab.txt`: descending frequency, ties broken by
ascending lexicographic order of the space-joined symbol form. -/
def entryLE (a b : VocabEntry) : Bool :=
  b.freq < a.freq ||
    (a.freq = b.freq && !strLt (String.intercalate " " b.symbols) (String.intercalate " " a.symbols))

/-- Modelled from the spec: the `vocab.txt` artifact of `save_artifacts` of
the missing `bpe_trainer.py`, as its list of lines. -/
def vocabTxt (v : List VocabEntry) : List String :=
  (v.mergeSort entryLE).map entryLine

/-- Split a character list on the space character. -/
def splitOnSpace : List Char → List (List Char)
  | [] => [[]]
  | c :: cs =>
      if c = ' ' then [] :: splitOnSpace cs
      else
        match splitOnSpace cs with
        | [] => [[c]]
        | g :: gs => (c :: g) :: gs

/-- Modelled from the spec: parsing one `merges.txt` line back into a MergeOp
(the downstream encoder replay described by the spec is not in the tree). -/
def parseMergeLine (s : String) : Option (String × String) :=
  match splitOnSpace s.data with
  | [l, r] => some (String.mk l, String.mk r)
  | _ => none

/-- Modelled from the spec: parsing the whole `merges.txt` back into an
ordered MergeOp list. -/
def parseMerges : List String → Option (List (String × String))
  | [] => some []
  | s :: ss =>
      match parseMergeLine s, parseMerges ss with
      | some p, some ps => some (p :: ps)
      | _, _ => none

/-- Replaying an ordered MergeOp list against a vocabulary. -/
def replay (log : List (String × String)) (v : List VocabEntry) : List VocabEntry :=
  log.foldl (fun w p => applyMerge p w) v

/-- Total number of symbol occurrences across the vocabulary. -/
def totalSymbols (v : List VocabEntry) : Nat :=
  (v.map (fun e => e.symbols.length)).sum

/-- Number of distinct symbols occurring in the vocabulary. -/
def distinctSymbols (v : List VocabEntry) : Nat :=
  ((v.map (fun e => e.symbols)).flatten).dedup.length

/-- A well-formed symbol: non-empty and free of the space separator used by
the text artifacts. -/
def goodSym (s : String) : Prop := s ≠ "" ∧ ' ' ∉ s.data

/-- Every symbol of every entry is well-formed. -/
def goodVocab (v : List VocabEntry) : Prop := ∀ e ∈ v, ∀ s ∈ e.symbols, goodSym s

/-- The worked example input of the specification. -/
def exInput : List (String × Int) :=
  [("low", 5), ("lower", 2), ("newest", 6), ("widest", 3)]

/-- The expected training result for the worked example with N = 1. -/
def exResult : FitResult :=
  { vocab :=
      [⟨"low", ["l", "o", "w", "</w>"], 5⟩,
       ⟨"lower", ["l", "o", "w", "e", "r", "</w>"], 2⟩,
       ⟨"newest", ["n", "e", "w", "es", "t", "</w>"], 6⟩,
       ⟨"widest", ["w", "i", "d", "es", "t", "</w>"], 3⟩],
    merges := [("e", "s")],
    requested := 1,
    performed := 1,
    earlyTermination := false }

/-- A one-word input whose merges are exhausted before the requested count. -/
def exEarlyInput : List (String × Int) := [("ab", 1)]

/-- The expected result for `exEarlyInput` with N = 5: only two merges are
representable, so training terminates early. -/
def exEarlyResult : FitResult :=
  { vocab := [⟨"ab", ["ab</w>"], 1⟩],
    merges := [("a", "b"), ("ab", "</w>")],
    requested := 5,
    performed := 2,
    earlyTermination := true }

/-- Declarative description of one boundary-respecting merge pass: every
leftmost non-overlapping adjacent occurrence of `(l, r)` at symbol boundaries
is replaced by the fused symbol `l ++ r`; all other symbols are kept. -/
inductive MergeSpec (l r : String) : List String → List String → Prop where
  | nil : MergeSpec l r [] []
  | fuse {s t : List String} : MergeSpec l r s t →
      MergeSpec l r (l :: r :: s) ((l ++ r) :: t)
  | keep {x : String} {s t : List String} : ¬(x = l ∧ s.head? = some r) →
      MergeSpec l r s t → MergeSpec l r (x :: s) (x :: t)

theorem charLt_iff (a b : Char) : charLt a b = true ↔ a < b := by
  simp only [charLt, decide_eq_true_eq]
  exact Iff.rfl

theorem charLt_false_iff (a b : Char) : charLt a b = false ↔ ¬ a < b := by
  rw [← charLt_iff]
  cases charLt a b <;> simp

theorem charListLt_lex : ∀ s t : List Char, charListLt s t = true ↔ List.Lex (· < ·) s t
  | [], [] => by
      constructor
      · intro h; cases h
      · intro h; cases h
  | [], b :: bs => by
      simp only [charListLt]
      exact ⟨fun _ => List.Lex.nil, fun _ => by trivial⟩
  | a :: as, [] => by
      constructor
      · intro h; cases h
      · intro h; cases h
  | a :: as, b :: bs => by
      simp only [charListLt]
      by_cases hab : a < b
      · rw [if_pos ((charLt_iff a b).2 hab)]
        exact ⟨fun _ => List.Lex.rel hab, fun _ => rfl⟩
      · rw [if_neg (fun h => hab ((charLt_iff a b).1 h))]
        by_cases hba : b < a
        · rw [if_pos ((charLt_iff b a).2 hba)]
          constructor
          · intro h; cases h
          · intro h
            cases h with
            | cons h' => exact absurd hba (lt_irrefl _)
            | rel h' => exact absurd h' hab
        · rw [if_neg (fun h => hba ((charLt_iff b a).1 h))]
          rw [charListLt_lex as bs]
          have hed : a = b := le_antisymm (not_lt.1 hba) (not_lt.1 hab)
          subst hed
          constructor
          · intro h; exact List.Lex.cons h
          · intro h
            cases h with
            | cons h' => exact h'
            | rel h' => exact absurd h' hab

theorem strLt_iff (a b : String) : strLt a b = true ↔ a < b := by
  rw [String.lt_iff_toList_lt]
  exact charListLt_lex a.data b.data

theorem strLt_false_iff (a b : String) : strLt a b = false ↔ ¬ a < b := by
  rw [← strLt_iff]
  cases strLt a b <;> simp

theorem betterPair_iff (v : List VocabEntry) (q b : String × String) :
    betterPair v q b = true ↔
      countSymbolPairs v b < countSymbolPairs v q ∨
        (countSymbolPairs v q = countSymbolPairs v b ∧ joinedPair q < joinedPair b) := by
  simp only [betterPair, Bool.or_eq_true, Bool.and_eq_true, decide_eq_true_eq, strLt_iff]

theorem betterPair_false_iff (v : List VocabEntry) (q b : String × String) :
    betterPair v q b = false ↔
      countSymbolPairs v q ≤ countSymbolPairs v b ∧
        (countSymbolPairs v q = countSymbolPairs v b → joinedPair b ≤ joinedPair q) := by
  rw [← Bool.not_eq_true, betterPair_iff]
  push_neg
  exact Iff.rfl

theorem betterPair_irrefl (v : List VocabEntry) (q : String × String) :
    betterPair v q q = false := by
  rw [betterPair_false_iff]
  exact ⟨le_refl _, fun _ => le_refl _⟩

theorem betterPair_trans (v : List VocabEntry) {a b c : String × String}
    (h₁ : betterPair v a b = true) (h₂ : betterPair v b c = true) :
    betterPair v a c = true := by
  rw [betterPair_iff] at h₁ h₂ ⊢
  rcases h₁ with h₁ | ⟨e₁, l₁⟩
  · rcases h₂ with h₂ | ⟨e₂, l₂⟩
    · exact Or.inl (h₂.trans h₁)
    · exact Or.inl (e₂ ▸ h₁)
  · rcases h₂ with h₂ | ⟨e₂, l₂⟩
    · exact Or.inl (e₁ ▸ h₂)
    · exact Or.inr ⟨e₁.trans e₂, l₁.trans l₂⟩

theorem betterPair_le_trans (v : List VocabEntry) {a b c : String × String}
    (h₁ : betterPair v a b = false) (h₂ : betterPair v a c = true) :
    betterPair v b c = true := by
  rw [betterPair_false_iff] at h₁
  rw [betterPair_iff] at h₂ ⊢
  rcases h₂ with h₂ | ⟨e₂, l₂⟩
  · rcases Nat.lt_or_ge (countSymbolPairs v a) (countSymbolPairs v b) with h | h
    · exact Or.inl (h₂.trans h)
    · rcases Nat.eq_or_lt_of_le h₁.1 with he | hl
      · exact Or.inl (he ▸ h₂)
      · exact absurd hl (Nat.not_lt.2 h)
  · rcases Nat.eq_or_lt_of_le h₁.1 with he | hl
    · exact Or.inr ⟨he ▸ e₂.symm ▸ rfl, lt_of_le_of_lt (h₁.2 he) l₂⟩
    · exact Or.inl (e₂ ▸ hl)

theorem pickBest_cons (v : List VocabEntry) (p x : String × String)
    (t : List (String × String)) :
    pickBest v p (x :: t) = pickBest v (if betterPair v x p then x else p) t := rfl

theorem pickBest_mem (v : List VocabEntry) :
    ∀ (ps : List (String × String)) (p : String × String), pickBest v p ps ∈ p :: ps
  | [], p => by simp [pickBest]
  | x :: t, p => by
      rw [pickBest_cons]
      by_cases hx : betterPair v x p = true
      · rw [if_pos hx]
        rcases List.mem_cons.1 (pickBest_mem v t x) with h | h <;> simp [h]
      · rw [if_neg hx]
        rcases List.mem_cons.1 (pickBest_mem v t p) with h | h <;> simp [h]

theorem pickBest_best (v : List VocabEntry) :
    ∀ (ps : List (String × String)) (p q : String × String), q ∈ p :: ps →
      betterPair v q (pickBest v p ps) = false
  | [], p, q, hq => by
      simp only [List.mem_cons, List.not_mem_nil, or_false] at hq
      subst hq
      simp only [pickBest, List.foldl_nil]
      exact betterPair_irrefl v q
  | x :: t, p, q, hq => by
      rw [pickBest_cons]
      by_cases hxp : betterPair v x p = true
      · rw [if_pos hxp]
        rcases List.mem_cons.1 hq with hqp | hq'
        · subst hqp
          by_contra hcon
          rw [Bool.not_eq_false] at hcon
          have hxr : betterPair v x (pickBest v x t) = true :=
            betterPair_trans v hxp hcon
          rw [pickBest_best v t x x (List.mem_cons_self x t)] at hxr
          cases hxr
        · exact pickBest_best v t x q hq'
      · rw [if_neg hxp]
        rw [Bool.not_eq_true] at hxp
        rcases List.mem_cons.1 hq with hqp | hq'
        · subst hqp
          exact pickBest_best v t q q (List.mem_cons_self q t)
        · rcases List.mem_cons.1 hq' with hqx | hq''
          · subst hqx
            by_contra hcon
            rw [Bool.not_eq_false] at hcon
            have hpr : betterPair v p (pickBest v p t) = true :=
              betterPair_le_trans v hxp hcon
            rw [pickBest_best v t p p (List.mem_cons_self p t)] at hpr
            cases hpr
          · exact pickBest_best v t p q (List.mem_cons.2 (Or.inr hq''))

theorem selectPair_none_iff (v : List VocabEntry) :
    selectPair v = none ↔ allPairs v = [] := by
  unfold selectPair
  cases h : allPairs v <;> simp

theorem selectPair_mem (v : List VocabEntry) (p : String × String)
    (h : selectPair v = some p) : p ∈ allPairs v := by
  unfold selectPair at h
  cases hv : allPairs v with
  | nil => rw [hv] at h; cases h
  | cons a t =>
      rw [hv] at h
      simp only [Option.some.injEq] at h
      rw [← h, ← hv]
      have := pickBest_mem v t a
      rw [hv]
      exact this

theorem selectPair_best (v : List VocabEntry) (p : String × String)
    (h : selectPair v = some p) :
    ∀ q ∈ allPairs v, betterPair v q p = false := by
  intro q hq
  unfold selectPair at h
  cases hv : allPairs v with
  | nil => rw [hv] at hq; cases hq
  | cons a t =>
      rw [hv] at h hq
      simp only [Option.some.injEq] at h
      rw [← h]
      exact pickBest_best v t a q hq

theorem adjacentPairs_cons₂ (a b : String) (s : List String) :
    adjacentPairs (a :: b :: s) = (a, b) :: adjacentPairs (b :: s) := rfl

theorem addPairs_apply (freq : Nat) :
    ∀ (s : List String) (f : (String × String) → Nat) (q : String × String),
      addPairs freq s f q = f q + freq * (adjacentPairs s).count q
  | [], f, q => by simp [addPairs, adjacentPairs]
  | [x], f, q => by simp [addPairs, adjacentPairs]
  | a :: b :: rest, f, q => by
      simp only [addPairs]
      rw [addPairs_apply freq (b :: rest), adjacentPairs_cons₂, List.count_cons]
      by_cases hq : q = (a, b)
      · rw [if_pos hq, if_pos (by simp [hq])]
        ring
      · rw [if_neg hq, if_neg (by simp only [beq_iff_eq]; exact fun hc => hq hc.symm)]
        ring

theorem countSymbolPairs_eq (v : List VocabEntry) (q : String × String) :
    countSymbolPairs v q =
      (v.map (fun e => e.freq * (adjacentPairs e.symbols).count q)).sum := by
  have key : ∀ (w : List VocabEntry) (f : (String × String) → Nat),
      w.foldl (fun g e => addPairs e.freq e.symbols g) f q =
        f q + (w.map (fun e => e.freq * (adjacentPairs e.symbols).count q)).sum := by
    intro w
    induction w with
    | nil => intro f; simp
    | cons e t ih =>
        intro f
        simp only [List.foldl_cons, List.map_cons, List.sum_cons]
        rw [ih, addPairs_apply]
        omega
  have := key v (fun _ => 0)
  simpa [countSymbolPairs] using this

theorem string_ext : ∀ {a b : String}, a.data = b.data → a = b
  | ⟨_⟩, ⟨_⟩, h => congrArg String.mk h

theorem append_ne_left (l r : String) (hr : r ≠ "") : l ++ r ≠ l := by
  intro h
  apply hr
  have hd := congrArg String.data h
  rw [String.data_append] at hd
  have hlen := congrArg List.length hd
  rw [List.length_append] at hlen
  have : r.data = [] := List.eq_nil_of_length_eq_zero (by omega)
  exact string_ext (by simp [this])

theorem append_ne_right (l r : String) (hl : l ≠ "") : l ++ r ≠ r := by
  intro h
  apply hl
  have hd := congrArg String.data h
  rw [String.data_append] at hd
  have hlen := congrArg List.length hd
  rw [List.length_append] at hlen
  have : l.data = [] := List.eq_nil_of_length_eq_zero (by omega)
  exact string_ext (by simp [this])

theorem mergeSymbols_length_le (l r : String) :
    ∀ s, (mergeSymbols l r s).length ≤ s.length
  | [] => le_refl _
  | [_] => le_refl _
  | x :: y :: rest => by
      simp only [mergeSymbols]
      split
      · have := mergeSymbols_length_le l r rest
        simp only [List.length_cons]
        omega
      · have := mergeSymbols_length_le l r (y :: rest)
        simp only [List.length_cons] at this ⊢
        omega

theorem mergeSymbols_length_lt (l r : String) :
    ∀ s, (l, r) ∈ adjacentPairs s → (mergeSymbols l r s).length < s.length
  | [], h => by cases h
  | [_], h => by cases h
  | x :: y :: rest, h => by
      simp only [mergeSymbols]
      split
      · have := mergeSymbols_length_le l r rest
        simp only [List.length_cons]
        omega
      · rename_i hc
        rw [adjacentPairs_cons₂] at h
        rcases List.mem_cons.1 h with he | h'
        · have hx : x = l := (Prod.mk.injEq _ _ _ _ ▸ he).1.symm
          have hy : y = r := (Prod.mk.injEq _ _ _ _ ▸ he).2.symm
          exact absurd ⟨hx, hy⟩ hc
        · have := mergeSymbols_length_lt l r (y :: rest) h'
          simp only [List.length_cons] at this ⊢
          omega

theorem mergeSymbols_mem (l r : String) :
    ∀ s, ∀ z ∈ mergeSymbols l r s, z ∈ s ∨ z = l ++ r
  | [], z, hz => by cases hz
  | [x], z, hz => Or.inl hz
  | x :: y :: rest, z, hz => by
      simp only [mergeSymbols] at hz
      split at hz
      · rcases List.mem_cons.1 hz with he | hz'
        · exact Or.inr he
        · rcases mergeSymbols_mem l r rest z hz' with h | h
          · exact Or.inl (List.mem_cons.2 (Or.inr (List.mem_cons.2 (Or.inr h))))
          · exact Or.inr h
      · rcases List.mem_cons.1 hz with he | hz'
        · exact Or.inl (he ▸ List.mem_cons_self x (y :: rest))
        · rcases mergeSymbols_mem l r (y :: rest) z hz' with h | h
          · exact Or.inl (List.mem_cons.2 (Or.inr h))
          · exact Or.inr h

theorem mergeSymbols_head (l r y : String) (s : List String) :
    (mergeSymbols l r (y :: s)).head? = some y ∨
      (y = l ∧ (mergeSymbols l r (y :: s)).head? = some (l ++ r)) := by
  cases s with
  | nil => exact Or.inl rfl
  | cons z t =>
      simp only [mergeSymbols]
      split
      · rename_i hc
        exact Or.inr ⟨hc.1, rfl⟩
      · exact Or.inl rfl

theorem mergeSymbols_count_zero (l r : String) (hl : l ≠ "") (hr : r ≠ "") :
    ∀ s, (adjacentPairs (mergeSymbols l r s)).count (l, r) = 0
  | [] => by simp [mergeSymbols, adjacentPairs]
  | [x] => by simp [mergeSymbols, adjacentPairs]
  | x :: y :: rest => by
      simp only [mergeSymbols]
      split
      · cases hrest : mergeSymbols l r rest with
        | nil => simp [adjacentPairs]
        | cons z t =>
            rw [adjacentPairs_cons₂, List.count_cons]
            have h2 : (adjacentPairs (z :: t)).count (l, r) = 0 := by
              rw [← hrest]
              exact mergeSymbols_count_zero l r hl hr rest
            have hne : ¬ (l, r) = (l ++ r, z) := by
              intro he
              exact append_ne_left l r hr ((Prod.mk.injEq _ _ _ _ ▸ he).1.symm)
            rw [h2, beq_eq_false_iff_ne.2 (fun he => hne he.symm)]
            simp
      · rename_i hc
        cases hm : mergeSymbols l r (y :: rest) with
        | nil => simp [adjacentPairs]
        | cons z t =>
            rw [adjacentPairs_cons₂, List.count_cons]
            have h2 : (adjacentPairs (z :: t)).count (l, r) = 0 := by
              rw [← hm]
              exact mergeSymbols_count_zero l r hl hr (y :: rest)
            have hne : ¬ (l, r) = (x, z) := by
              intro he
              have hx : l = x := (Prod.mk.injEq _ _ _ _ ▸ he).1
              have hz : r = z := (Prod.mk.injEq _ _ _ _ ▸ he).2
              rcases mergeSymbols_head l r y rest with h | ⟨hy, h⟩
              · rw [hm] at h
                simp only [List.head?_cons, Option.some.injEq] at h
                exact hc ⟨hx.symm, (hz.trans h).symm⟩
              · rw [hm] at h
                simp only [List.head?_cons, Option.some.injEq] at h
                exact append_ne_right l r hl (by rw [← h, ← hz])
            rw [h2, beq_eq_false_iff_ne.2 (fun he => hne he.symm)]
            simp

theorem mergeSymbols_mergeSpec (l r : String) :
    ∀ s, MergeSpec l r s (mergeSymbols l r s)
  | [] => MergeSpec.nil
  | [x] => MergeSpec.keep (by simp) MergeSpec.nil
  | x :: y :: rest => by
      simp only [mergeSymbols]
      split
      · rename_i hc
        obtain ⟨hx, hy⟩ := hc
        rw [hx, hy]
        exact MergeSpec.fuse (mergeSymbols_mergeSpec l r rest)
      · rename_i hc
        exact MergeSpec.keep (by simpa using hc) (mergeSymbols_mergeSpec l r (y :: rest))

theorem mergeSymbols_text (l r : String) :
    ∀ s, ((mergeSymbols l r s).map String.data).flatten = (s.map String.data).flatten
  | [] => rfl
  | [_] => rfl
  | x :: y :: rest => by
      simp only [mergeSymbols]
      split
      · rename_i hc
        obtain ⟨hx, hy⟩ := hc
        rw [hx, hy]
        simp only [List.map_cons, List.flatten_cons, String.data_append,
          mergeSymbols_text l r rest, List.append_assoc]
      · simp only [List.map_cons, List.flatten_cons, mergeSymbols_text l r (y :: rest),
          List.map_cons, List.flatten_cons]

theorem applyMerge_freqs (p : String × String) (v : List VocabEntry) :
    (applyMerge p v).map VocabEntry.freq = v.map VocabEntry.freq := by
  rw [applyMerge, List.map_map]
  rfl

theorem applyMerge_words (p : String × String) (v : List VocabEntry) :
    (applyMerge p v).map VocabEntry.word = v.map VocabEntry.word := by
  rw [applyMerge, List.map_map]
  rfl

theorem applyMerge_total_le (p : String × String) (v : List VocabEntry) :
    totalSymbols (applyMerge p v) ≤ totalSymbols v := by
  rw [totalSymbols, totalSymbols, applyMerge, List.map_map]
  apply List.sum_le_sum
  intro e _
  exact mergeSymbols_length_le p.1 p.2 e.symbols

theorem applyMerge_total_lt (p : String × String) :
    ∀ v : List VocabEntry, (∃ e ∈ v, (p.1, p.2) ∈ adjacentPairs e.symbols) →
      totalSymbols (applyMerge p v) < totalSymbols v
  | [], h => by
      rcases h with ⟨e, he, _⟩
      cases he
  | e :: t, h => by
      rcases h with ⟨e', he', hp⟩
      rcases List.mem_cons.1 he' with he | ht
      · have h1 := mergeSymbols_length_lt p.1 p.2 e'.symbols hp
        have h2 := applyMerge_total_le p t
        rw [he] at h1
        simp only [applyMerge, totalSymbols, List.map_cons, List.sum_cons,
          List.map_map] at *
        omega
      · have h1 := mergeSymbols_length_le p.1 p.2 e.symbols
        have h2 := applyMerge_total_lt p t ⟨e', ht, hp⟩
        simp only [applyMerge, totalSymbols, List.map_cons, List.sum_cons,
          List.map_map] at *
        omega

theorem allPairs_mem (v : List VocabEntry) (p : String × String)
    (h : p ∈ allPairs v) : ∃ e ∈ v, p ∈ adjacentPairs e.symbols := by
  rw [allPairs, List.mem_flatten] at h
  rcases h with ⟨l, hl, hp⟩
  rw [List.mem_map] at hl
  rcases hl with ⟨e, he, rfl⟩
  exact ⟨e, he, hp⟩

theorem goodSym_append {l r : String} (hl : goodSym l) (hr : goodSym r) :
    goodSym (l ++ r) := by
  constructor
  · intro h
    apply hl.1
    have hd := congrArg String.data h
    rw [String.data_append] at hd
    have hlen := congrArg List.length hd
    rw [List.length_append] at hlen
    simp only [List.length_nil] at hlen
    exact string_ext (List.eq_nil_of_length_eq_zero (by omega))
  · rw [String.data_append]
    intro h
    rcases List.mem_append.1 h with h | h
    · exact hl.2 h
    · exact hr.2 h

theorem initVocab_good (wf : List (String × Int))
    (h : ∀ p ∈ wf, ∀ c ∈ p.1.data, c ≠ ' ') : goodVocab (initVocab wf) := by
  intro e he s hs
  rw [initVocab, List.mem_map] at he
  rcases he with ⟨p, hp, rfl⟩
  simp only [List.mem_append, List.mem_map, List.mem_singleton] at hs
  rcases hs with ⟨c, hc, rfl⟩ | rfl
  · refine ⟨?_, ?_⟩
    · intro hcon
      cases congrArg String.data hcon
    · intro hsp
      rcases List.mem_singleton.1 hsp with rfl
      exact h p hp _ hc rfl
  · exact ⟨by decide, by decide⟩

theorem applyMerge_good {p : String × String} {v : List VocabEntry}
    (h1 : goodSym p.1) (h2 : goodSym p.2) (hv : goodVocab v) :
    goodVocab (applyMerge p v) := by
  intro e he s hs
  rw [applyMerge, List.mem_map] at he
  rcases he with ⟨e', he', rfl⟩
  rcases mergeSymbols_mem p.1 p.2 e'.symbols s hs with h | h
  · exact hv e' he' s h
  · exact h ▸ goodSym_append h1 h2

theorem selectPair_good {v : List VocabEntry} {p : String × String}
    (hv : goodVocab v) (h : selectPair v = some p) : goodSym p.1 ∧ goodSym p.2 := by
  rcases allPairs_mem v p (selectPair_mem v p h) with ⟨e, he, hp⟩
  rw [adjacentPairs] at hp
  have hz := List.of_mem_zip hp
  exact ⟨hv e he p.1 hz.1, hv e he p.2 (List.mem_of_mem_tail hz.2)⟩

theorem fitAux_replay : ∀ (n : Nat) (v : List VocabEntry),
    (fitAux n v).1 = replay (fitAux n v).2.1 v
  | 0, _ => rfl
  | n + 1, v => by
      simp only [fitAux]
      cases hs : selectPair v with
      | none => rfl
      | some p => exact fitAux_replay n (applyMerge p v)

theorem fitAux_length_le : ∀ (n : Nat) (v : List VocabEntry),
    (fitAux n v).2.1.length ≤ n
  | 0, _ => le_refl _
  | n + 1, v => by
      simp only [fitAux]
      cases hs : selectPair v with
      | none => simp
      | some p =>
          simp only [List.length_cons]
          exact Nat.succ_le_succ (fitAux_length_le n (applyMerge p v))

theorem fitAux_early_iff : ∀ (n : Nat) (v : List VocabEntry),
    (fitAux n v).2.2 = true ↔ (fitAux n v).2.1.length < n
  | 0, _ => by simp [fitAux]
  | n + 1, v => by
      simp only [fitAux]
      cases hs : selectPair v with
      | none => simp
      | some p =>
          simp only [List.length_cons]
          rw [fitAux_early_iff n (applyMerge p v)]
          omega

theorem fitAux_empty : ∀ (n : Nat) (v : List VocabEntry), allPairs v = [] →
    (fitAux n v).1 = v ∧ (fitAux n v).2.1 = []
  | 0, _, _ => ⟨rfl, rfl⟩
  | n + 1, v, h => by
      simp only [fitAux]
      rw [(selectPair_none_iff v).2 h]
      exact ⟨rfl, rfl⟩

theorem fitAux_early_empty : ∀ (n : Nat) (v : List VocabEntry),
    (fitAux n v).2.2 = true → allPairs (fitAux n v).1 = []
  | 0, _, h => by cases h
  | n + 1, v, h => by
      simp only [fitAux] at h ⊢
      cases hs : selectPair v with
      | none => exact (selectPair_none_iff v).1 hs
      | some p =>
          rw [hs] at h
          exact fitAux_early_empty n (applyMerge p v) h

theorem fitAux_freq : ∀ (n : Nat) (v : List VocabEntry),
    (fitAux n v).1.map VocabEntry.freq = v.map VocabEntry.freq
  | 0, _ => rfl
  | n + 1, v => by
      simp only [fitAux]
      cases hs : selectPair v with
      | none => rfl
      | some p =>
          rw [fitAux_freq n (applyMerge p v), applyMerge_freqs]

theorem fitAux_total : ∀ (n : Nat) (v : List VocabEntry),
    totalSymbols (fitAux n v).1 + (fitAux n v).2.1.length ≤ totalSymbols v
  | 0, _ => by simp [fitAux]
  | n + 1, v => by
      simp only [fitAux]
      cases hs : selectPair v with
      | none => simp
      | some p =>
          simp only [List.length_cons]
          have h1 := fitAux_total n (applyMerge p v)
          have hp := selectPair_mem v p hs
          rcases allPairs_mem v p hp with ⟨e, he, hpe⟩
          have h2 := applyMerge_total_lt p v ⟨e, he, hpe⟩
          omega

theorem fitAux_log_good : ∀ (n : Nat) (v : List VocabEntry), goodVocab v →
    ∀ p ∈ (fitAux n v).2.1, goodSym p.1 ∧ goodSym p.2
  | 0, _, _, p, hp => by cases hp
  | n + 1, v, hv, p, hp => by
      simp only [fitAux] at hp
      cases hs : selectPair v with
      | none => rw [hs] at hp; cases hp
      | some q =>
          rw [hs] at hp
          rcases List.mem_cons.1 hp with he | hp'
          · rcases selectPair_good hv hs with hg
            exact he ▸ hg
          · have hq := selectPair_good hv hs
            exact fitAux_log_good n (applyMerge q v)
              (applyMerge_good hq.1 hq.2 hv) p hp'

theorem splitOnSpace_no_space : ∀ cs : List Char, ' ' ∉ cs → splitOnSpace cs = [cs]
  | [], _ => rfl
  | c :: cs, h => by
      have hc : ¬ c = ' ' := fun he => h (he ▸ List.mem_cons_self c cs)
      simp only [splitOnSpace]
      rw [if_neg hc, splitOnSpace_no_space cs (fun hm => h (List.mem_cons.2 (Or.inr hm)))]

theorem splitOnSpace_append : ∀ a b : List Char, ' ' ∉ a →
    splitOnSpace (a ++ ' ' :: b) = a :: splitOnSpace b
  | [], b, _ => by simp [splitOnSpace]
  | c :: a, b, h => by
      have hc : ¬ c = ' ' := fun he => h (he ▸ List.mem_cons_self c a)
      simp only [List.cons_append, splitOnSpace, List.append_eq]
      rw [if_neg hc, splitOnSpace_append a b (fun hm => h (List.mem_cons.2 (Or.inr hm)))]

theorem string_mk_data : ∀ s : String, String.mk s.data = s
  | ⟨_⟩ => rfl

theorem parseMergeLine_mergeLine {l r : String} (hl : goodSym l) (hr : goodSym r) :
    parseMergeLine (mergeLine (l, r)) = some (l, r) := by
  rw [parseMergeLine, mergeLine]
  have hd : (l ++ " " ++ r).data = l.data ++ ' ' :: r.data := by
    rw [String.data_append, String.data_append]
    simp [List.append_assoc]
  rw [hd, splitOnSpace_append l.data r.data hl.2, splitOnSpace_no_space r.data hr.2]

theorem parseMerges_mergesTxt : ∀ log : List (String × String),
    (∀ p ∈ log, goodSym p.1 ∧ goodSym p.2) →
    parseMerges (mergesTxt log) = some log
  | [], _ => rfl
  | p :: t, h => by
      have hp := h p (List.mem_cons_self p t)
      have ht := parseMerges_mergesTxt t (fun q hq => h q (List.mem_cons.2 (Or.inr hq)))
      rw [mergesTxt] at ht ⊢
      simp only [List.map_cons, parseMerges]
      rw [show mergeLine p = mergeLine (p.1, p.2) from rfl,
        parseMergeLine_mergeLine hp.1 hp.2, ht]

theorem fit_ok {wf : List (String × Int)} {n : Int} {res : FitResult}
    (h : fit wf n = .ok res) :
    validInput wf n = true ∧
      res.vocab = (fitAux n.toNat (initVocab wf)).1 ∧
      res.merges = (fitAux n.toNat (initVocab wf)).2.1 ∧
      res.requested = n.toNat ∧
      res.performed = res.merges.length ∧
      res.earlyTermination = (fitAux n.toNat (initVocab wf)).2.2 := by
  rw [fit] at h
  split at h
  · rename_i hv
    simp only [Except.ok.injEq] at h
    rw [← h]
    exact ⟨hv, rfl, rfl, rfl, rfl, rfl⟩
  · cases h

theorem distinct_le_total (v : List VocabEntry) : distinctSymbols v ≤ totalSymbols v := by
  rw [distinctSymbols, totalSymbols]
  have h1 : ((v.map (fun e => e.symbols)).flatten).dedup.length ≤
      ((v.map (fun e => e.symbols)).flatten).length :=
    (List.dedup_sublist _).length_le
  rw [List.length_flatten, List.map_map] at h1
  exact h1

theorem validInput_false_iff (wf : List (String × Int)) (n : Int) :
    validInput wf n = false ↔
      wf = [] ∨ (∃ p ∈ wf, p.2 ≤ 0) ∨ (∃ p ∈ wf, p.1 = "") ∨ n < 0 := by
  constructor
  · intro h
    by_contra hc
    push_neg at hc
    obtain ⟨h1, h2, h3, h4⟩ := hc
    have hv : validInput wf n = true := by
      rw [validInput, Bool.and_eq_true, Bool.and_eq_true]
      refine ⟨⟨?_, ?_⟩, ?_⟩
      · cases hwf : wf with
        | nil => exact absurd hwf h1
        | cons a t => rfl
      · rw [List.all_eq_true]
        intro p hp
        rw [Bool.and_eq_true]
        exact ⟨decide_eq_true (h2 p hp), decide_eq_true (h3 p hp)⟩
      · exact decide_eq_true h4
    rw [hv] at h
    cases h
  · intro hc
    by_contra h
    rw [Bool.not_eq_false, validInput, Bool.and_eq_true, Bool.and_eq_true] at h
    obtain ⟨⟨he, hall⟩, hn⟩ := h
    rcases hc with h1 | ⟨p, hp, hle⟩ | ⟨p, hp, hem⟩ | h4
    · rw [h1] at he
      cases he
    · have hall' := List.all_eq_true.1 hall p hp
      rw [Bool.and_eq_true] at hall'
      have := of_decide_eq_true hall'.1
      omega
    · have hall' := List.all_eq_true.1 hall p hp
      rw [Bool.and_eq_true] at hall'
      exact of_decide_eq_true hall'.2 hem
    · have := of_decide_eq_true hn
      omega

/-- Claim C1: training is deterministic because the Merge Selector is an exact
greedy maximum with a lexicographic tie-break: whenever `selectPair` picks `p`,
no candidate pair has a strictly higher weighted count, and among the pairs
tying the maximal count the joined textual form of `p` is the least in the
ascending lexicographic order, so the choice (hence the whole MergeOp sequence
and `vocab.txt`) is independent of any map iteration order. -/
theorem claim_C1_deterministic_selection (v : List VocabEntry) (p : String × String)
    (h : selectPair v = some p) :
    p ∈ allPairs v ∧
      (∀ q ∈ allPairs v, countSymbolPairs v q ≤ countSymbolPairs v p) ∧
      (∀ q ∈ allPairs v, countSymbolPairs v q = countSymbolPairs v p →
        joinedPair p ≤ joinedPair q) := by
  refine ⟨selectPair_mem v p h, ?_, ?_⟩
  · intro q hq
    exact ((betterPair_false_iff v q p).1 (selectPair_best v p h q hq)).1
  · intro q hq he
    exact ((betterPair_false_iff v q p).1 (selectPair_best v p h q hq)).2 he

set_option maxRecDepth 100000 in
/-- Witness for C1 at the specification's worked example, where three pairs
tie at weighted count 9 and the lexicographically least joined form wins. -/
theorem claim_C1_deterministic_selection_witness :
    selectPair (initVocab exInput) = some ("e", "s") ∧
      (("e", "s") ∈ allPairs (initVocab exInput) ∧
        (∀ q ∈ allPairs (initVocab exInput),
          countSymbolPairs (initVocab exInput) q ≤
            countSymbolPairs (initVocab exInput) ("e", "s")) ∧
        (∀ q ∈ allPairs (initVocab exInput),
          countSymbolPairs (initVocab exInput) q =
            countSymbolPairs (initVocab exInput) ("e", "s") →
          joinedPair ("e", "s") ≤ joinedPair q)) :=
  ⟨by decide, claim_C1_deterministic_selection (initVocab exInput) ("e", "s") (by decide)⟩

/-- Claim C2: for every valid input whose words are free of the space
separator, parsing the emitted `merges.txt` back yields exactly the ordered
MergeOp log, and replaying that log, in recorded order, against a fresh
character-level initialization of the same input reproduces the final
Vocabulary emitted in `vocab.txt`. -/
theorem claim_C2_merges_roundtrip (wf : List (String × Int)) (n : Int)
    (res : FitResult) (hsp : ∀ p ∈ wf, ∀ c ∈ p.1.data, c ≠ ' ')
    (h : fit wf n = Except.ok res) :
    parseMerges (mergesTxt res.merges) = some res.merges ∧
      replay res.merges (initVocab wf) = res.vocab ∧
      vocabTxt (replay res.merges (initVocab wf)) = vocabTxt res.vocab := by
  obtain ⟨_, hvocab, hmerges, _, _, _⟩ := fit_ok h
  have hgood := initVocab_good wf hsp
  have hrep : replay res.merges (initVocab wf) = res.vocab := by
    rw [hmerges, hvocab]
    exact (fitAux_replay n.toNat (initVocab wf)).symm
  refine ⟨?_, hrep, by rw [hrep]⟩
  rw [hmerges]
  exact parseMerges_mergesTxt _ (fitAux_log_good n.toNat (initVocab wf) hgood)

set_option maxRecDepth 1000000 in
/-- Witness for C2 at the specification's worked example with N = 1. -/
theorem claim_C2_merges_roundtrip_witness :
    (∀ p ∈ exInput, ∀ c ∈ p.1.data, c ≠ ' ') ∧
      fit exInput 1 = Except.ok exResult ∧
      (parseMerges (mergesTxt exResult.merges) = some exResult.merges ∧
        replay exResult.merges (initVocab exInput) = exResult.vocab ∧
        vocabTxt (replay exResult.merges (initVocab exInput)) =
          vocabTxt exResult.vocab) :=
  ⟨by decide, by decide,
    claim_C2_merges_roundtrip exInput 1 exResult (by decide) (by decide)⟩

set_option maxRecDepth 1000000 in
/-- Claim C3: on the worked example with N = 1 the selected pair is
`(e, s)` with weighted count 9 (6 from "newest" plus 3 from "widest"),
beating `(l, o)` at 7; the MergeOp log is exactly `[("e", "s")]`, and the
entry for "newest" becomes `n e w es t </w>` with every symbol other than
the fused pair unchanged. -/
theorem claim_C3_worked_example :
    countSymbolPairs (initVocab exInput) ("e", "s") = 9 ∧
      countSymbolPairs (initVocab exInput) ("l", "o") = 7 ∧
      selectPair (initVocab exInput) = some ("e", "s") ∧
      fit exInput 1 = Except.ok exResult ∧
      exResult.merges = [("e", "s")] ∧
      exResult.vocab.filter (fun e => e.word = "newest") =
        [⟨"newest", ["n", "e", "w", "es", "t", "</w>"], 6⟩] := by
  refine ⟨by decide, by decide, by decide, by decide, by decide, by decide⟩

/-- Claim C4: the Pair Statistics Collector is exactly the frequency-weighted
occurrence count: for every vocabulary and pair, `countSymbolPairs` equals the
sum over entries of the number of adjacent occurrences of the pair inside the
entry's symbol sequence times the entry's frequency (so a pair occurring twice
in one word contributes its frequency twice), and an entry whose symbol
sequence has length 1 contributes no pairs at all. -/
theorem claim_C4_weighted_pair_counts (v : List VocabEntry) (q : String × String) :
    countSymbolPairs v q =
      (v.map (fun e => e.freq * (adjacentPairs e.symbols).count q)).sum ∧
      ∀ e : VocabEntry, e.symbols.length = 1 → adjacentPairs e.symbols = [] := by
  refine ⟨countSymbolPairs_eq v q, ?_⟩
  intro e he
  cases hs : e.symbols with
  | nil => rfl
  | cons x t =>
      cases t with
      | nil => rfl
      | cons y u => rw [hs] at he; simp at he

/-- Witness for C4 at the specification's worked example. -/
theorem claim_C4_weighted_pair_counts_witness :
    countSymbolPairs (initVocab exInput) ("e", "s") =
      ((initVocab exInput).map
        (fun e => e.freq * (adjacentPairs e.symbols).count ("e", "s"))).sum ∧
      (∀ e : VocabEntry, e.symbols.length = 1 → adjacentPairs e.symbols = []) ∧
      adjacentPairs (⟨"ha", ["ha"], 4⟩ : VocabEntry).symbols = [] :=
  ⟨(claim_C4_weighted_pair_counts (initVocab exInput) ("e", "s")).1,
    (claim_C4_weighted_pair_counts (initVocab exInput) ("e", "s")).2,
    (claim_C4_weighted_pair_counts (initVocab exInput) ("e", "s")).2 _ (by decide)⟩

/-- Claim C5: one merge application rewrites every entry by the leftmost
non-overlapping boundary-respecting scan (the declarative `MergeSpec`
relation): every adjacent occurrence of the selected pair that aligns with
current symbol boundaries is replaced by the single fused symbol, the
underlying character text of every entry is left unchanged (so no rewrite can
cross unrelated symbol boundaries), and each successful iteration appends
exactly one MergeOp to the log. -/
theorem claim_C5_boundary_respecting_merge :
    (∀ (l r : String) (s : List String), MergeSpec l r s (mergeSymbols l r s)) ∧
      (∀ (l r : String) (s : List String),
        ((mergeSymbols l r s).map String.data).flatten = (s.map String.data).flatten) ∧
      ∀ (n : Nat) (v : List VocabEntry) (p : String × String), selectPair v = some p →
        (fitAux (n + 1) v).2.1 = p :: (fitAux n (applyMerge p v)).2.1 := by
  refine ⟨fun l r s => mergeSymbols_mergeSpec l r s,
    fun l r s => mergeSymbols_text l r s, ?_⟩
  intro n v p h
  simp only [fitAux]
  rw [h]

set_option maxRecDepth 100000 in
/-- Witness for C5: the merge of the worked example, plus the one-op-per-step
property at the example's first iteration. -/
theorem claim_C5_boundary_respecting_merge_witness :
    MergeSpec "e" "s" ["n", "e", "w", "e", "s", "t", "</w>"]
        (mergeSymbols "e" "s" ["n", "e", "w", "e", "s", "t", "</w>"]) ∧
      ((mergeSymbols "e" "s" ["n", "e", "w", "e", "s", "t", "</w>"]).map
          String.data).flatten =
        ((["n", "e", "w", "e", "s", "t", "</w>"] : List String).map
          String.data).flatten ∧
      selectPair (initVocab exInput) = some ("e", "s") ∧
      (fitAux 1 (initVocab exInput)).2.1 =
        ("e", "s") :: (fitAux 0 (applyMerge ("e", "s") (initVocab exInput))).2.1 :=
  ⟨claim_C5_boundary_respecting_merge.1 "e" "s" _,
    claim_C5_boundary_respecting_merge.2.1 "e" "s" _,
    by decide,
    claim_C5_boundary_respecting_merge.2.2 0 (initVocab exInput) ("e", "s") (by decide)⟩

/-- Claim C6: training fails with `InvalidInputError` exactly when the
frequency map is empty, some frequency is non-positive, some word is the empty
string, or the requested merge count is negative; on such inputs `fit` returns
the error and produces no result record (hence no artifacts). -/
theorem claim_C6_invalid_input (wf : List (String × Int)) (n : Int) :
    fit wf n = Except.error BPEError.invalidInput ↔
      wf = [] ∨ (∃ p ∈ wf, p.2 ≤ 0) ∨ (∃ p ∈ wf, p.1 = "") ∨ n < 0 := by
  rw [← validInput_false_iff, fit]
  split
  · rename_i hv
    constructor
    · intro hc; cases hc
    · intro hc; rw [hv] at hc; cases hc
  · rename_i hv
    rw [Bool.not_eq_true] at hv
    exact ⟨fun _ => hv, fun _ => rfl⟩

/-- Witness for C6: the empty frequency map is rejected. -/
theorem claim_C6_invalid_input_witness :
    fit ([] : List (String × Int)) 5 = Except.error BPEError.invalidInput :=
  (claim_C6_invalid_input [] 5).2 (Or.inl rfl)

/-- Claim C7: a run that stops because PairCount became empty is reported as
early termination on the successful result (never as an error): the flag is
set exactly when fewer merges were performed than requested, the result
carries the performed-versus-requested counts, the final vocabulary indeed
has no remaining pairs when the flag is set, and every merge completed so far
is still emitted on its own `merges.txt` line in order. -/
theorem claim_C7_early_termination (wf : List (String × Int)) (n : Int)
    (res : FitResult) (h : fit wf n = Except.ok res) :
    (res.earlyTermination = true ↔ res.performed < res.requested) ∧
      res.performed = res.merges.length ∧
      (res.earlyTermination = true → allPairs res.vocab = []) ∧
      mergesTxt res.merges = res.merges.map mergeLine := by
  obtain ⟨_, hvocab, hmerges, hreq, hperf, hearly⟩ := fit_ok h
  refine ⟨?_, hperf, ?_, rfl⟩
  · rw [hearly, hperf, hmerges, hreq]
    exact fitAux_early_iff n.toNat (initVocab wf)
  · intro he
    rw [hvocab]
    rw [hearly] at he
    exact fitAux_early_empty n.toNat (initVocab wf) he

set_option maxRecDepth 1000000 in
/-- Witness for C7: one word, N = 5, only two merges representable. -/
theorem claim_C7_early_termination_witness :
    fit exEarlyInput 5 = Except.ok exEarlyResult ∧
      ((exEarlyResult.earlyTermination = true ↔
          exEarlyResult.performed < exEarlyResult.requested) ∧
        exEarlyResult.performed = exEarlyResult.merges.length ∧
        (exEarlyResult.earlyTermination = true → allPairs exEarlyResult.vocab = []) ∧
        mergesTxt exEarlyResult.merges = exEarlyResult.merges.map mergeLine) :=
  ⟨by decide, claim_C7_early_termination exEarlyInput 5 exEarlyResult (by decide)⟩

/-- Claim C8: the total of entry frequencies over the Vocabulary is invariant
across every merge iteration: the final vocabulary's frequency sum equals the
initial one, and a single merge application never changes any entry's
frequency. -/
theorem claim_C8_frequency_conservation (wf : List (String × Int)) (n : Int)
    (res : FitResult) (h : fit wf n = Except.ok res) :
    (res.vocab.map VocabEntry.freq).sum = ((initVocab wf).map VocabEntry.freq).sum ∧
      ∀ (p : String × String) (v : List VocabEntry),
        (applyMerge p v).map VocabEntry.freq = v.map VocabEntry.freq := by
  obtain ⟨_, hvocab, _, _, _, _⟩ := fit_ok h
  refine ⟨?_, fun p v => applyMerge_freqs p v⟩
  rw [hvocab, fitAux_freq]

set_option maxRecDepth 1000000 in
/-- Witness for C8 at the specification's worked example. -/
theorem claim_C8_frequency_conservation_witness :
    fit exInput 1 = Except.ok exResult ∧
      ((exResult.vocab.map VocabEntry.freq).sum =
          ((initVocab exInput).map VocabEntry.freq).sum ∧
        ∀ (p : String × String) (v : List VocabEntry),
          (applyMerge p v).map VocabEntry.freq = v.map VocabEntry.freq) :=
  ⟨by decide, claim_C8_frequency_conservation exInput 1 exResult (by decide)⟩

/-- Claim C9: applying a merge never lengthens any entry's symbol sequence,
and afterwards the merged pair has zero adjacent occurrences anywhere in the
Vocabulary. -/
theorem claim_C9_merge_monotonicity (l r : String) (v : List VocabEntry)
    (hl : l ≠ "") (hr : r ≠ "") :
    (∀ e ∈ v, (mergeSymbols l r e.symbols).length ≤ e.symbols.length) ∧
      countSymbolPairs (applyMerge (l, r) v) (l, r) = 0 := by
  refine ⟨fun e _ => mergeSymbols_length_le l r e.symbols, ?_⟩
  rw [countSymbolPairs_eq]
  apply List.sum_eq_zero
  intro x hx
  rw [applyMerge, List.map_map, List.mem_map] at hx
  rcases hx with ⟨e, _, rfl⟩
  simp only [Function.comp_apply]
  rw [mergeSymbols_count_zero l r hl hr e.symbols, Nat.mul_zero]

set_option maxRecDepth 100000 in
/-- Witness for C9 at the specification's worked example. -/
theorem claim_C9_merge_monotonicity_witness :
    (∀ e ∈ initVocab exInput,
        (mergeSymbols "e" "s" e.symbols).length ≤ e.symbols.length) ∧
      countSymbolPairs (applyMerge ("e", "s") (initVocab exInput)) ("e", "s") = 0 :=
  claim_C9_merge_monotonicity "e" "s" (initVocab exInput) (by decide) (by decide)

/-- Claim C10: the MergeOp log never exceeds the requested merge count nor the
difference between the initial total symbol count and the final number of
distinct symbols, and once PairCount is empty any further requested merge
iterations append no MergeOps at all. -/
theorem claim_C10_log_bounds (wf : List (String × Int)) (n : Int)
    (res : FitResult) (h : fit wf n = Except.ok res) :
    res.merges.length ≤ res.requested ∧
      res.merges.length ≤ totalSymbols (initVocab wf) - distinctSymbols res.vocab ∧
      (allPairs res.vocab = [] → ∀ m : Nat, (fitAux m res.vocab).2.1 = []) := by
  obtain ⟨_, hvocab, hmerges, hreq, _, _⟩ := fit_ok h
  refine ⟨?_, ?_, ?_⟩
  · rw [hmerges, hreq]
    exact fitAux_length_le _ _
  · have h1 := fitAux_total n.toNat (initVocab wf)
    have h2 := distinct_le_total res.vocab
    rw [hvocab] at h2
    rw [hmerges, hvocab]
    omega
  · intro hp m
    exact (fitAux_empty m res.vocab hp).2

set_option maxRecDepth 1000000 in
/-- Witness for C10 at the early-terminating example. -/
theorem claim_C10_log_bounds_witness :
    fit exEarlyInput 5 = Except.ok exEarlyResult ∧
      (exEarlyResult.merges.length ≤ exEarlyResult.requested ∧
        exEarlyResult.merges.length ≤
          totalSymbols (initVocab exEarlyInput) - distinctSymbols exEarlyResult.vocab ∧
        (allPairs exEarlyResult.vocab = [] →
          ∀ m : Nat, (fitAux m exEarlyResult.vocab).2.1 = [])) :=
  ⟨by decide, claim_C10_log_bounds exEarlyInput 5 exEarlyResult (by decide)⟩

end BPE
